import Mathlib

/-
Verification of the project-identity resolution and metadata-fusion core of
the syld repository, shallowly embedded in Lean.

Strings are modelled as lists of Unicode scalar values (`List Char`), which
matches Rust `String`/`&str` up to UTF-8 encoding: lexicographic order on
code points coincides with lexicographic byte order of UTF-8, and Rust's
`char`-level operations map to `Char`-level operations here.  The only
deliberate restriction: `str::to_lowercase` is modelled by the ASCII-only
`Char.toLower` (URL grouping keys in this code base are ASCII; the case
mapping is applied pointwise in both).

`HashMap`/`HashSet` (std, `RandomState`) are modelled as association lists
that keep keys in first-insertion order; value vectors keep push order, as
in the source.  The SQLite `enrichment_cache` table is modelled as an
association list keyed by `project_url`, and serde JSON (de)serialization of
`UpstreamProject` is modelled field-presence-wise: a serialized blob records,
for every struct field, whether the field is present in the JSON object and
its value; serde derive yields `None` for a missing `Option` field, the
default for a missing `#[serde(default)]` field, and a "missing field" error
for any other missing field.  Timestamps are whole seconds (`Int`); chrono's
`Duration::days 7` is `7 * 86400` seconds.
-/

namespace Syld

/-- Strings as lists of characters. -/
abbrev Str := List Char

/-- Conversion from a Lean string literal to the character-list model. -/
def str (s : String) : Str := s.data

/-- Rust `char::is_whitespace` (the Unicode `White_Space` property). -/
def isRustWs (c : Char) : Bool :=
  let n := c.toNat
  (9 ≤ n && n ≤ 13) || n == 32 || n == 133 || n == 160 || n == 5760 ||
  (8192 ≤ n && n ≤ 8202) || n == 8232 || n == 8233 || n == 8239 || n == 8287 ||
  n == 12288

/-- Rust `str::trim`: drop whitespace from both ends. -/
def trimChars (s : Str) : Str :=
  ((s.dropWhile isRustWs).reverse.dropWhile isRustWs).reverse

/-- Rust `str::trim_end_matches('/')`: drop every trailing slash. -/
def trimEndSlash (s : Str) : Str :=
  (s.reverse.dropWhile (fun c => decide (c = '/'))).reverse

/-- Rust `str::strip_prefix` test: does `p` start the string `s`? -/
def hasPre : Str → Str → Bool
  | [], _ => true
  | _ :: _, [] => false
  | p :: ps, c :: cs => decide (p = c) && hasPre ps cs

/-- Rust `str::strip_prefix`: the remainder after `p`, when `p` starts `s`. -/
def stripPre (p s : Str) : Option Str :=
  if hasPre p s then some (s.drop p.length) else none

/-- Rust `str::to_lowercase`, modelled pointwise by ASCII `Char.toLower`. -/
def lowerStr (s : Str) : Str := s.map Char.toLower

/-- `normalize_url` from `src/report/terminal.rs`: trim whitespace, drop all
trailing slashes, strip one `https://` or `http://` scheme, strip one
leading `www.`, lowercase. -/
def normalize_url (url : Str) : Str :=
  let s0 := trimEndSlash (trimChars url)
  let s1 :=
    match stripPre (str "https://") s0 with
    | some r => r
    | none =>
      match stripPre (str "http://") s0 with
      | some r => r
      | none => s0
  let s2 :=
    match stripPre (str "www.") s1 with
    | some r => r
    | none => s1
  lowerStr s2

/-- `compute_ancestor` from `src/report/terminal.rs`: everything before the
last `/` (Rust `rfind`), `none` for the empty string and for strings without
a slash. -/
def computeAncestor (u : Str) : Option Str :=
  if u = [] then none
  else
    match u.reverse.dropWhile (fun c => !(decide (c = '/'))) with
    | [] => none
    | _ :: r => some r.reverse

/-- The `PackageSource` enum from `src/discover/mod.rs`. -/
inductive PackageSource where
  | pacman | apt | dnf | flatpak | snap | nix | mise | brew | docker | podman
deriving DecidableEq

/-- `InstalledPackage` from `src/discover/mod.rs`. -/
structure InstalledPackage where
  name : Str
  version : Str
  description : Option Str
  url : Option Str
  source : PackageSource
  licenses : List Str
deriving DecidableEq

/-- `ProjectGroup` from `src/report/terminal.rs` (package references are
modelled by the packages themselves). -/
structure ProjectGroup where
  url : Str
  project_urls : List Str
  packages : List InstalledPackage
deriving DecidableEq

/-- The grouping key of a package: `normalize_url` of its URL, or the empty
string when it has none. -/
def groupKey (p : InstalledPackage) : Str :=
  match p.url with
  | some u => normalize_url u
  | none => []

/-- `HashMap<_, Vec<_>>` `entry(k).or_default().push(v)`, modelled on an
association list that keeps keys in first-insertion order. -/
def insEntry {α : Type} (m : List (Str × List α)) (k : Str) (v : α) :
    List (Str × List α) :=
  match m with
  | [] => [(k, [v])]
  | (k', vs) :: rest =>
    if k = k' then (k', vs ++ [v]) :: rest else (k', vs) :: insEntry rest k v

/-- Lookup in the association-list map; the empty list when absent. -/
def lookupA {α : Type} (m : List (Str × List α)) (k : Str) : List α :=
  match m with
  | [] => []
  | (k', vs) :: rest => if k' = k then vs else lookupA rest k

/-- Key list of the association-list map (= `HashMap::keys()` in model
order). -/
def keysOf {α : Type} (m : List (Str × List α)) : List Str := m.map Prod.fst

/-- Build a grouping map from a list: each item with a key is pushed onto its
key's bucket. -/
def buildMap {α : Type} (key? : α → Option Str) (l : List α) :
    List (Str × List α) :=
  l.foldl
    (fun m x =>
      match key? x with
      | some k => insEntry m k x
      | none => m)
    []

/-- Step 1 of `group_by_project`: exact partition by normalized URL. -/
def exactMap (pkgs : List InstalledPackage) :
    List (Str × List InstalledPackage) :=
  buildMap (fun p => some (groupKey p)) pkgs

/-- The ancestor key used for sibling collection: `compute_ancestor`, with
empty ancestors discarded (the `!ancestor.is_empty()` guard). -/
def ancKey (u : Str) : Option Str :=
  match computeAncestor u with
  | some a => if a = [] then none else some a
  | none => none

/-- Step 2 of `group_by_project`: bucket URL keys by their (non-empty)
ancestor. -/
def ancChildren (urls : List Str) : List (Str × List Str) :=
  buildMap ancKey urls

/-- Strict lexicographic order on strings by code point, i.e. Rust `str`
ordering (UTF-8 byte order agrees with code-point order). -/
def strLtB : Str → Str → Bool
  | [], [] => false
  | [], _ :: _ => true
  | _ :: _, [] => false
  | a :: as_, b :: bs =>
    if a.toNat < b.toNat then true
    else if b.toNat < a.toNat then false
    else strLtB as_ bs

/-- Stable insertion of `x` into `l`: `x` goes in front of the first strictly
greater element, hence after every element less than or equal to it. -/
def insBy {α : Type} (lt : α → α → Bool) (x : α) : List α → List α
  | [] => [x]
  | y :: t => if lt x y then x :: y :: t else y :: insBy lt x t

/-- Stable insertion sort (models Rust's stable `sort`/`sort_by`). -/
def sortBy {α : Type} (lt : α → α → Bool) (l : List α) : List α :=
  l.foldl (fun acc x => insBy lt x acc) []

/-- Ascending sort of a string list (`Vec::sort`). -/
def sortStr (l : List Str) : List Str := sortBy strLtB l

/-- `group_by_project` from `src/report/terminal.rs`: exact partition, then
one-hop ancestor merging of sibling buckets (two or more children), then the
remaining exact buckets, finally sorted by key. -/
def group_by_project (pkgs : List InstalledPackage) : List ProjectGroup :=
  let em := exactMap pkgs
  let urls := keysOf em
  let ac := ancChildren urls
  let merged := ac.filterMap
    (fun e =>
      if 2 ≤ e.2.length then
        some { url := e.1, project_urls := sortStr e.2,
               packages := e.2.flatMap (fun c => lookupA em c) }
      else none)
  let am := (ac.filter (fun e => 2 ≤ e.2.length)).flatMap Prod.snd
  let standalone := em.filterMap
    (fun e =>
      if e.1 ∈ am then none
      else some { url := e.1, project_urls := [], packages := e.2 })
  sortBy (fun g h => strLtB g.url h.url) (merged ++ standalone)

/-- The bucket of an exact key, characterized from the input list: the
packages with that grouping key, in input order. -/
def bucketOf (pkgs : List InstalledPackage) (k : Str) :
    List InstalledPackage :=
  pkgs.filter (fun p => decide (groupKey p = k))

/-- The distinct exact keys of a package list (bucket keys of step 1). -/
def allKeys (pkgs : List InstalledPackage) : List Str :=
  keysOf (exactMap pkgs)

/-- The distinct child bucket keys under an ancestor `a`: the exact keys
whose last `/`-segment removed gives `a`. -/
def childKeys (pkgs : List InstalledPackage) (a : Str) : List Str :=
  (allKeys pkgs).filter (fun u => decide (computeAncestor u = some a))

/-- The set of child keys consumed by ancestor merging (`already_merged`):
all children of every eligible (two-or-more-children) ancestor. -/
def alreadyMerged (pkgs : List InstalledPackage) : List Str :=
  ((ancChildren (allKeys pkgs)).filter
    (fun e => 2 ≤ e.2.length)).flatMap Prod.snd

/-- Step 3 of `group_by_project` in isolation: the merged ancestor groups,
in map-iteration order. -/
def mergedGroups (pkgs : List InstalledPackage) : List ProjectGroup :=
  (ancChildren (allKeys pkgs)).filterMap
    (fun e =>
      if 2 ≤ e.2.length then
        some { url := e.1, project_urls := sortStr e.2,
               packages := e.2.flatMap (fun c => lookupA (exactMap pkgs) c) }
      else none)

/-- Step 4 of `group_by_project` in isolation: the remaining exact buckets. -/
def standaloneGroups (pkgs : List InstalledPackage) : List ProjectGroup :=
  (exactMap pkgs).filterMap
    (fun e =>
      if e.1 ∈ alreadyMerged pkgs then none
      else some { url := e.1, project_urls := [], packages := e.2 })

/-- `FundingChannel` from `src/project/mod.rs`. -/
structure FundingChannel where
  platform : Str
  url : Str
deriving DecidableEq

/-- `UpstreamProject` from `src/project/mod.rs`. -/
structure UpstreamProject where
  name : Str
  repo_url : Option Str
  homepage : Option Str
  licenses : List Str
  funding : List FundingChannel
  bug_tracker : Option Str
  contributing_url : Option Str
  is_open_source : Option Bool
  documentation_url : Option Str
  good_first_issues_url : Option Str
  stars : Option Nat
deriving DecidableEq

/-- The per-field rule of `merge_enrichment`: keep a populated base field,
otherwise adopt the contribution. -/
def mergeOpt {α : Type} (b e : Option α) : Option α :=
  match b with
  | some v => some v
  | none => e

/-- `merge_enrichment` from `src/enrich/mod.rs`. -/
def merge_enrichment (base enriched : UpstreamProject) : UpstreamProject :=
  let licenses := enriched.licenses.foldl
    (fun acc l => if l ∈ acc then acc else acc ++ [l]) base.licenses
  let funding := enriched.funding.foldl
    (fun acc ch =>
      if acc.any (fun f => decide (f.url = ch.url)) then acc else acc ++ [ch])
    base.funding
  { name := base.name
    repo_url := base.repo_url
    homepage := mergeOpt base.homepage enriched.homepage
    licenses := licenses
    funding := funding
    bug_tracker := mergeOpt base.bug_tracker enriched.bug_tracker
    contributing_url := mergeOpt base.contributing_url enriched.contributing_url
    is_open_source := mergeOpt base.is_open_source enriched.is_open_source
    documentation_url :=
      mergeOpt base.documentation_url enriched.documentation_url
    good_first_issues_url :=
      mergeOpt base.good_first_issues_url enriched.good_first_issues_url
    stars := mergeOpt base.stars enriched.stars }

/-- A serialized `UpstreamProject` JSON object, field-presence-wise: `some v`
when the field occurs in the JSON object (with `some none` a JSON `null` for
an `Option` field), `none` when the field is absent. -/
structure ProjBlob where
  name : Option Str
  repo_url : Option (Option Str)
  homepage : Option (Option Str)
  licenses : Option (List Str)
  funding : Option (List FundingChannel)
  bug_tracker : Option (Option Str)
  contributing_url : Option (Option Str)
  is_open_source : Option (Option Bool)
  documentation_url : Option (Option Str)
  good_first_issues_url : Option (Option Str)
  stars : Option (Option Nat)
deriving DecidableEq

/-- serde serialization of an `UpstreamProject`: every field is emitted. -/
def serializeProject (p : UpstreamProject) : ProjBlob :=
  { name := some p.name
    repo_url := some p.repo_url
    homepage := some p.homepage
    licenses := some p.licenses
    funding := some p.funding
    bug_tracker := some p.bug_tracker
    contributing_url := some p.contributing_url
    is_open_source := some p.is_open_source
    documentation_url := some p.documentation_url
    good_first_issues_url := some p.good_first_issues_url
    stars := some p.stars }

/-- serde-derive deserialization of `UpstreamProject`: a missing `Option`
field yields `None`; the fields annotated `#[serde(default)]`
(`is_open_source`, `documentation_url`, `good_first_issues_url`, `stars`,
all of `Option` type) likewise default to `None`; the remaining fields
(`name`, `licenses`, `funding`) are required, and their absence is a
"missing field" error. -/
def deserializeProject (b : ProjBlob) : Except Str UpstreamProject :=
  match b.name, b.licenses, b.funding with
  | some n, some ls, some fd =>
    .ok { name := n
          repo_url := b.repo_url.join
          homepage := b.homepage.join
          licenses := ls
          funding := fd
          bug_tracker := b.bug_tracker.join
          contributing_url := b.contributing_url.join
          is_open_source := b.is_open_source.join
          documentation_url := b.documentation_url.join
          good_first_issues_url := b.good_first_issues_url.join
          stars := b.stars.join }
  | none, _, _ => .error (str "missing field name")
  | _, none, _ => .error (str "missing field licenses")
  | _, _, none => .error (str "missing field funding")

/-- The `enrichment_cache` SQLite table: `project_url` (primary key) to
serialized blob and `cached_at` (seconds). -/
abbrev CacheStore := List (Str × ProjBlob × Int)

/-- Row lookup by primary key. -/
def cacheLookup (st : CacheStore) (k : Str) : Option (ProjBlob × Int) :=
  match st with
  | [] => none
  | (k', e) :: rest => if k' = k then some e else cacheLookup rest k

/-- `INSERT OR REPLACE` on the primary key. -/
def upsertCache (st : CacheStore) (k : Str) (b : ProjBlob) (t : Int) :
    CacheStore :=
  match st with
  | [] => [(k, b, t)]
  | (k', e) :: rest =>
    if k' = k then (k, b, t) :: rest else (k', e) :: upsertCache rest k b t

/-- `Storage::save_enrichment`: serialize and upsert with `cached_at = now`. -/
def save_enrichment (st : CacheStore) (k : Str) (p : UpstreamProject)
    (now : Int) : CacheStore :=
  upsertCache st k (serializeProject p) now

/-- `Duration::days(7)` in seconds. -/
def ttlSeconds : Int := 7 * 86400

/-- `Storage::get_enrichment`: absent row gives `Ok(None)`; a row older than
seven days gives `Ok(None)` (checked before deserialization); otherwise the
blob is deserialized, a failure surfacing as `Err`. -/
def get_enrichment (st : CacheStore) (k : Str) (now : Int) :
    Except Str (Option UpstreamProject) :=
  match cacheLookup st k with
  | none => .ok none
  | some (blob, t) =>
    if now - t > ttlSeconds then .ok none
    else
      match deserializeProject blob with
      | .ok p => .ok (some p)
      | .error e => .error e

/-- Strip trailing slashes one at a time, repeatedly: while the last
character is `/`, drop it.  This is the specification-side formulation of
the trailing-slash step (the implementation uses `trim_end_matches`). -/
def stripTrailAll (s : Str) : Str :=
  if h : s.getLast? = some '/' then stripTrailAll s.dropLast else s
termination_by s.length
decreasing_by
  have hne : s ≠ [] := by
    intro he
    subst he
    simp at h
  rw [List.length_dropLast]
  have := List.length_pos.mpr hne
  omega

/-- The Normalizer as §4.1 of the spec words it, with the trailing-slash
step amended from "strip one trailing `/`" to "strip trailing `/`
repeatedly": trim whitespace; strip all trailing slashes one at a time;
strip a leading `https://` or `http://`; strip a leading `www.`; lowercase
the remainder. -/
def normSpec (u : Str) : Str :=
  let b := stripTrailAll (trimChars u)
  let c :=
    match stripPre (str "https://") b with
    | some r => r
    | none =>
      match stripPre (str "http://") b with
      | some r => r
      | none => b
  let d :=
    match stripPre (str "www.") c with
    | some r => r
    | none => c
  lowerStr d

/-- The string does not end in a slash. -/
def NoSlashEnd (l : Str) : Prop := ∀ c, l.getLast? = some c → c ≠ '/'

/-- An `UpstreamProject` with every optional field unset. -/
def emptyProject (n : Str) : UpstreamProject :=
  { name := n, repo_url := none, homepage := none, licenses := [],
    funding := [], bug_tracker := none, contributing_url := none,
    is_open_source := none, documentation_url := none,
    good_first_issues_url := none, stars := none }

/-- Concrete base record with `stars = 100` (spec example for merge). -/
def c1base : UpstreamProject := { emptyProject (str "test") with stars := some 100 }

/-- Concrete contribution with `stars = 5` (spec example for merge). -/
def c1contrib : UpstreamProject := { emptyProject (str "test") with stars := some 5 }

/-- Concrete base with one funding channel at url X. -/
def c5base : UpstreamProject :=
  { emptyProject (str "test") with
    funding := [{ platform := str "GitHub Sponsors",
                  url := str "https://github.com/sponsors/test" }] }

/-- Concrete contribution with a duplicate of url X (different platform
label) and a fresh url Y. -/
def c5contrib : UpstreamProject :=
  { emptyProject (str "test") with
    funding := [{ platform := str "Other Label",
                  url := str "https://github.com/sponsors/test" },
                { platform := str "Open Collective",
                  url := str "https://opencollective.com/test" }] }

/-- A test package with a URL. -/
def mkPkg (n u : String) : InstalledPackage :=
  { name := str n, version := str "1.0", description := none,
    url := some (str u), source := .pacman, licenses := [] }

/-- Two packages whose normalized URLs `/a` and `/b` share the empty-string
ancestor. -/
def pkgsSlash : List InstalledPackage := [mkPkg "pa" "/a", mkPkg "pb" "/b"]

/-- Two sibling packages under the ancestor `0pointer.de/projects`. -/
def pkgsSib : List InstalledPackage :=
  [mkPkg "libdaemon" "https://0pointer.de/projects/alpha",
   mkPkg "nss" "https://0pointer.de/projects/zeta"]

/-- Two sibling packages inserted in descending key order under `a.org`. -/
def pkgsOrd : List InstalledPackage :=
  [mkPkg "pz" "https://a.org/z", mkPkg "pb" "https://a.org/b"]

/-- The merged group produced by `group_by_project` on `pkgsSib`. -/
def groupSib : ProjectGroup :=
  { url := str "0pointer.de/projects",
    project_urls := [str "0pointer.de/projects/alpha",
                     str "0pointer.de/projects/zeta"],
    packages := [mkPkg "libdaemon" "https://0pointer.de/projects/alpha",
                 mkPkg "nss" "https://0pointer.de/projects/zeta"] }

/-- A cached blob that fails to deserialize (every field absent). -/
def corruptBlob : ProjBlob :=
  { name := none, repo_url := none, homepage := none, licenses := none,
    funding := none, bug_tracker := none, contributing_url := none,
    is_open_source := none, documentation_url := none,
    good_first_issues_url := none, stars := none }

/-- A cached blob with the `licenses` collection field absent (all other
required fields present). -/
def blobNoLicenses : ProjBlob :=
  { name := some (str "OldProject"), repo_url := some none,
    homepage := some none, licenses := none, funding := some [],
    bug_tracker := some none, contributing_url := some none,
    is_open_source := none, documentation_url := none,
    good_first_issues_url := none, stars := none }

/-- An old-schema blob: the seven original fields present, the four later
`#[serde(default)]` fields absent (as in the repository's own regression
test). -/
def blobOldSchema : ProjBlob :=
  { name := some (str "OldProject"), repo_url := some none,
    homepage := some none, licenses := some [], funding := some [],
    bug_tracker := some none, contributing_url := some none,
    is_open_source := none, documentation_url := none,
    good_first_issues_url := none, stars := none }

end Syld

namespace Syld

theorem mergeOpt_isSome {α : Type} (b e : Option α) (h : b.isSome = true) :
    mergeOpt b e = b := by
  cases b with
  | none => simp [Option.isSome] at h
  | some v => rfl

theorem licenses_foldl_ex (el : List Str) :
    ∀ acc : List Str,
      ∃ t, el.foldl (fun acc l => if l ∈ acc then acc else acc ++ [l]) acc =
        acc ++ t := by
  induction el with
  | nil => intro acc; exact ⟨[], by simp⟩
  | cons x l ih =>
    intro acc
    simp only [List.foldl_cons]
    by_cases h : x ∈ acc
    · rw [if_pos h]; exact ih acc
    · rw [if_neg h]
      obtain ⟨t, ht⟩ := ih (acc ++ [x])
      exact ⟨x :: t, by rw [ht]; simp⟩

theorem funding_foldl_spec (el : List FundingChannel) :
    ∀ acc : List FundingChannel,
      ∃ t,
        el.foldl
          (fun acc ch =>
            if acc.any (fun f => decide (f.url = ch.url)) then acc
            else acc ++ [ch]) acc = acc ++ t ∧
        ∀ ch ∈ t, ch ∈ el ∧ ch.url ∉ acc.map (fun f => f.url) := by
  induction el with
  | nil => intro acc; exact ⟨[], by simp, by simp⟩
  | cons x l ih =>
    intro acc
    simp only [List.foldl_cons]
    by_cases h : acc.any (fun f => decide (f.url = x.url)) = true
    · rw [if_pos h]
      obtain ⟨t, ht, hmem⟩ := ih acc
      exact ⟨t, ht, fun ch hch =>
        ⟨List.mem_cons_of_mem _ (hmem ch hch).1, (hmem ch hch).2⟩⟩
    · rw [if_neg h]
      obtain ⟨t, ht, hmem⟩ := ih (acc ++ [x])
      refine ⟨x :: t, by rw [ht]; simp, ?_⟩
      intro ch hch
      rcases List.mem_cons.mp hch with hx | hcht
      · subst hx
        refine ⟨List.mem_cons_self _ _, ?_⟩
        simp only [List.any_eq_true, decide_eq_true_eq, not_exists] at h
        simp only [List.mem_map, not_exists]
        exact h
      · have h2 := (hmem ch hcht).2
        refine ⟨List.mem_cons_of_mem _ (hmem ch hcht).1, ?_⟩
        intro hin
        apply h2
        rw [List.map_append]
        exact List.mem_append_left _ hin

theorem funding_foldl_nodup (el : List FundingChannel) :
    ∀ acc : List FundingChannel,
      (acc.map (fun f => f.url)).Nodup →
      ((el.foldl
          (fun acc ch =>
            if acc.any (fun f => decide (f.url = ch.url)) then acc
            else acc ++ [ch]) acc).map (fun f => f.url)).Nodup := by
  induction el with
  | nil => intro acc h; simpa using h
  | cons x l ih =>
    intro acc hacc
    simp only [List.foldl_cons]
    by_cases h : acc.any (fun f => decide (f.url = x.url)) = true
    · rw [if_pos h]; exact ih acc hacc
    · rw [if_neg h]
      apply ih
      rw [List.map_append]
      simp only [List.any_eq_true, decide_eq_true_eq, not_exists] at h
      simp only [List.nodup_append, List.map_cons, List.map_nil]
      refine ⟨hacc, List.nodup_singleton _, ?_⟩
      intro a ha hb
      simp only [List.mem_singleton] at hb
      subst hb
      obtain ⟨f, hf, hfu⟩ := List.mem_map.mp ha
      exact h f ⟨hf, hfu⟩

theorem funding_foldl_mem (el : List FundingChannel) :
    ∀ (acc : List FundingChannel) (ch : FundingChannel), ch ∈ el →
      ∃ x ∈ el.foldl
          (fun acc ch =>
            if acc.any (fun f => decide (f.url = ch.url)) then acc
            else acc ++ [ch]) acc, x.url = ch.url := by
  induction el with
  | nil => intro acc ch hch; cases hch
  | cons y l ih =>
    intro acc ch hch
    simp only [List.foldl_cons]
    rcases List.mem_cons.mp hch with hy | hl
    · subst hy
      by_cases h : acc.any (fun f => decide (f.url = ch.url)) = true
      · rw [if_pos h]
        simp only [List.any_eq_true, decide_eq_true_eq] at h
        obtain ⟨f, hf, hfu⟩ := h
        obtain ⟨t, ht, _⟩ := funding_foldl_spec l acc
        refine ⟨f, ?_, hfu⟩
        rw [ht]
        exact List.mem_append_left _ hf
      · rw [if_neg h]
        obtain ⟨t, ht, _⟩ := funding_foldl_spec l (acc ++ [ch])
        refine ⟨ch, ?_, rfl⟩
        rw [ht]
        exact List.mem_append_left _ (by simp)
    · by_cases h : acc.any (fun f => decide (f.url = y.url)) = true
      · rw [if_pos h]; exact ih acc ch hl
      · rw [if_neg h]; exact ih (acc ++ [y]) ch hl

theorem merge_funding_eq (b e : UpstreamProject) :
    (merge_enrichment b e).funding =
      e.funding.foldl
        (fun acc ch =>
          if acc.any (fun f => decide (f.url = ch.url)) then acc
          else acc ++ [ch]) b.funding := rfl

theorem merge_licenses_eq (b e : UpstreamProject) :
    (merge_enrichment b e).licenses =
      e.licenses.foldl (fun acc l => if l ∈ acc then acc else acc ++ [l])
        b.licenses := rfl

/-- C1: `merge_enrichment(base, contribution)` never replaces a populated
field of `base`: `name` and `repo_url` are always kept; every other
optional/scalar field that is `Some` in the base keeps its base value (so
merging `stars = 100` against `stars = 5` keeps 100); and the base's
licenses and funding lists are preserved, in order, as a prefix of the
merged collections — collections only grow. -/
theorem C1_merge_never_replaces (b e : UpstreamProject) :
    (merge_enrichment b e).name = b.name ∧
    (merge_enrichment b e).repo_url = b.repo_url ∧
    (b.homepage.isSome = true →
      (merge_enrichment b e).homepage = b.homepage) ∧
    (b.bug_tracker.isSome = true →
      (merge_enrichment b e).bug_tracker = b.bug_tracker) ∧
    (b.contributing_url.isSome = true →
      (merge_enrichment b e).contributing_url = b.contributing_url) ∧
    (b.documentation_url.isSome = true →
      (merge_enrichment b e).documentation_url = b.documentation_url) ∧
    (b.good_first_issues_url.isSome = true →
      (merge_enrichment b e).good_first_issues_url =
        b.good_first_issues_url) ∧
    (b.is_open_source.isSome = true →
      (merge_enrichment b e).is_open_source = b.is_open_source) ∧
    (b.stars.isSome = true → (merge_enrichment b e).stars = b.stars) ∧
    (∃ t, (merge_enrichment b e).licenses = b.licenses ++ t) ∧
    (∃ t, (merge_enrichment b e).funding = b.funding ++ t) := by
  refine ⟨rfl, rfl, ?_, ?_, ?_, ?_, ?_, ?_, ?_, ?_, ?_⟩
  · intro h; exact mergeOpt_isSome _ _ h
  · intro h; exact mergeOpt_isSome _ _ h
  · intro h; exact mergeOpt_isSome _ _ h
  · intro h; exact mergeOpt_isSome _ _ h
  · intro h; exact mergeOpt_isSome _ _ h
  · intro h; exact mergeOpt_isSome _ _ h
  · intro h; exact mergeOpt_isSome _ _ h
  · rw [merge_licenses_eq]; exact licenses_foldl_ex e.licenses b.licenses
  · rw [merge_funding_eq]
    obtain ⟨t, ht, _⟩ := funding_foldl_spec e.funding b.funding
    exact ⟨t, ht⟩

/-- Witness for C1 at the spec's concrete example: merging a base with
`stars = 100` against a contribution with `stars = 5` yields `stars = 100`. -/
theorem C1_witness : (merge_enrichment c1base c1contrib).stars = some 100 :=
  ((C1_merge_never_replaces c1base c1contrib).2.2.2.2.2.2.2.2.1 (by decide))

/-- C5: merged funding is a union deduplicated by channel url: the result's
urls are duplicate-free (given a duplicate-free base), every contributed url
occurs in the result, a result entry whose url already occurs in the base is
the base's entry (first-seen platform label wins), and on the concrete
example `merge({funding:[X]}, {funding:[X', Y]})` the result is exactly
`[X, Y]` — the base's entry for X followed by Y, length 2. -/
theorem C5_funding_union_dedup :
    (∀ b e : UpstreamProject,
      (b.funding.map (fun f => f.url)).Nodup →
      (((merge_enrichment b e).funding).map (fun f => f.url)).Nodup) ∧
    (∀ b e : UpstreamProject, ∀ ch ∈ e.funding,
      ∃ x ∈ (merge_enrichment b e).funding, x.url = ch.url) ∧
    (∀ b e : UpstreamProject, ∀ x ∈ (merge_enrichment b e).funding,
      x.url ∈ b.funding.map (fun f => f.url) → x ∈ b.funding) ∧
    (merge_enrichment c5base c5contrib).funding =
      [{ platform := str "GitHub Sponsors",
         url := str "https://github.com/sponsors/test" },
       { platform := str "Open Collective",
         url := str "https://opencollective.com/test" }] ∧
    ((merge_enrichment c5base c5contrib).funding).length = 2 := by
  refine ⟨?_, ?_, ?_, by decide, by decide⟩
  · intro b e h
    rw [merge_funding_eq]
    exact funding_foldl_nodup e.funding b.funding h
  · intro b e ch hch
    rw [merge_funding_eq]
    exact funding_foldl_mem e.funding b.funding ch hch
  · intro b e x hx hurl
    rw [merge_funding_eq] at hx
    obtain ⟨t, ht, hmem⟩ := funding_foldl_spec e.funding b.funding
    rw [ht] at hx
    rcases List.mem_append.mp hx with hb | htmem
    · exact hb
    · exact absurd hurl (hmem x htmem).2

/-- Witness for C5: the duplicate-freeness clause applied at the concrete
example records. -/
theorem C5_witness :
    (((merge_enrichment c5base c5contrib).funding).map
      (fun f => f.url)).Nodup :=
  C5_funding_union_dedup.1 c5base c5contrib (by decide)

theorem cacheLookup_upsert_self (st : CacheStore) (k : Str) (b : ProjBlob)
    (t : Int) : cacheLookup (upsertCache st k b t) k = some (b, t) := by
  induction st with
  | nil => simp [upsertCache, cacheLookup]
  | cons e rest ih =>
    obtain ⟨k', v⟩ := e
    by_cases h : k' = k
    · subst h
      simp [upsertCache, cacheLookup]
    · simp only [upsertCache, if_neg h, cacheLookup]
      exact ih

theorem deserialize_serialize (p : UpstreamProject) :
    deserializeProject (serializeProject p) = .ok p := rfl

theorem get_enrichment_lookup_some (st : CacheStore) (k : Str) (now : Int)
    (b : ProjBlob) (t : Int) (h : cacheLookup st k = some (b, t)) :
    get_enrichment st k now =
      if now - t > ttlSeconds then .ok none
      else
        match deserializeProject b with
        | .ok p => .ok (some p)
        | .error e => .error e := by
  unfold get_enrichment
  rw [h]

/-- C4: `get_enrichment` returns `Ok(None)` exactly when no row exists for
the key or when `now - cachedAt` exceeds seven days; an entry written at
`t0` is returned (deserialized back to the stored project) at `t0 + 6` days
and treated as absent at `t0 + 8` days, while its row is still present, and
remains until overwritten by the next `save_enrichment`. -/
theorem C4_cache_ttl :
    (∀ (st : CacheStore) (k : Str) (now : Int),
      get_enrichment st k now = .ok none ↔
        (cacheLookup st k = none ∨
          ∃ b t, cacheLookup st k = some (b, t) ∧ now - t > ttlSeconds)) ∧
    (∀ (st : CacheStore) (k : Str) (p : UpstreamProject) (t0 : Int),
      get_enrichment (save_enrichment st k p t0) k (t0 + 6 * 86400) =
        .ok (some p)) ∧
    (∀ (st : CacheStore) (k : Str) (p : UpstreamProject) (t0 : Int),
      get_enrichment (save_enrichment st k p t0) k (t0 + 8 * 86400) =
        .ok none) ∧
    (∀ (st : CacheStore) (k : Str) (p : UpstreamProject) (t0 : Int),
      cacheLookup (save_enrichment st k p t0) k =
        some (serializeProject p, t0)) ∧
    (∀ (st : CacheStore) (k : Str) (p : UpstreamProject) (t0 : Int)
        (q : UpstreamProject) (t1 : Int),
      cacheLookup (save_enrichment (save_enrichment st k p t0) k q t1) k =
        some (serializeProject q, t1)) := by
  refine ⟨?_, ?_, ?_, ?_, ?_⟩
  · intro st k now
    rcases h : cacheLookup st k with _ | ⟨b, t⟩
    · have hnone : get_enrichment st k now = .ok none := by
        unfold get_enrichment
        rw [h]
      rw [hnone]
      simp
    · rw [get_enrichment_lookup_some st k now b t h]
      by_cases httl : now - t > ttlSeconds
      · rw [if_pos httl]
        exact ⟨fun _ => Or.inr ⟨b, t, rfl, httl⟩, fun _ => rfl⟩
      · rw [if_neg httl]
        rcases hd : deserializeProject b with p | e
        · constructor
          · intro hcontra
            exact absurd hcontra (by simp)
          · rintro (hnone | ⟨b', t', hbt, httl'⟩)
            · exact absurd hnone (by simp)
            · have ht' : t = t' := congrArg Prod.snd (Option.some.inj hbt)
              rw [← ht'] at httl'
              exact absurd httl' httl
        · constructor
          · intro hcontra
            exact absurd hcontra (by simp)
          · rintro (hnone | ⟨b', t', hbt, httl'⟩)
            · exact absurd hnone (by simp)
            · have ht' : t = t' := congrArg Prod.snd (Option.some.inj hbt)
              rw [← ht'] at httl'
              exact absurd httl' httl
  · intro st k p t0
    unfold get_enrichment save_enrichment
    simp only [cacheLookup_upsert_self]
    rw [if_neg (by unfold ttlSeconds; omega)]
    simp only [deserialize_serialize]
  · intro st k p t0
    unfold get_enrichment save_enrichment
    simp only [cacheLookup_upsert_self]
    rw [if_pos (by unfold ttlSeconds; omega)]
  · intro st k p t0
    exact cacheLookup_upsert_self st k (serializeProject p) t0
  · intro st k p t0 q t1
    exact cacheLookup_upsert_self _ k (serializeProject q) t1

/-- Counterexample for C8: a stored blob that fails to deserialize does NOT
always surface as an error — when the row is also stale (here eight days
old), the TTL check runs first and `get_enrichment` silently returns
`Ok(None)`. -/
theorem C8_counterexample :
    get_enrichment [(str "k", corruptBlob, 0)] (str "k") (8 * 86400) =
      .ok none ∧
    deserializeProject corruptBlob = .error (str "missing field name") := by
  constructor
  · rfl
  · rfl

/-- C8 (amended): for every cache key whose stored blob fails to
deserialize, `get_enrichment` returns the deserialization error to its
caller — provided the entry is within the seven-day TTL (a stale corrupt
entry is bypassed as `Ok(None)` like any stale entry, because the staleness
check precedes deserialization). -/
theorem C8_corrupt_fresh_errors (st : CacheStore) (k : Str) (now : Int)
    (b : ProjBlob) (t : Int) (e : Str)
    (hfound : cacheLookup st k = some (b, t))
    (hfresh : ¬ now - t > ttlSeconds)
    (hbad : deserializeProject b = .error e) :
    get_enrichment st k now = .error e := by
  unfold get_enrichment
  simp only [hfound]
  rw [if_neg hfresh]
  simp only [hbad]

/-- Witness for C8 (amended): a fresh corrupt entry makes `get_enrichment`
return the error. -/
theorem C8_witness :
    get_enrichment [(str "k", corruptBlob, 0)] (str "k") 0 =
      .error (str "missing field name") :=
  C8_corrupt_fresh_errors _ _ _ _ _ _ rfl (by decide) rfl

/-- Counterexample for C9: a cached blob in which the collection field
`licenses` is absent does not deserialize as "unset" — `get_enrichment`
returns a missing-field error for it even when fresh, because `licenses`
(like `funding` and `name`) carries no serde default. -/
theorem C9_counterexample :
    get_enrichment [(str "u", blobNoLicenses, 0)] (str "u") 0 =
      .error (str "missing field licenses") := by
  rfl

/-- C9 (amended): for a cached blob produced under an older, additively
evolved schema, every absent `Option`-typed field and every absent
`#[serde(default)]` field deserializes as unset (`None`); but the required
fields `name`, `licenses` and `funding` must be present — deserialization
succeeds exactly with those present, producing the stored values for the
present fields and `None` for absent optionals. -/
theorem C9_absent_fields_unset (b : ProjBlob) (n : Str) (ls : List Str)
    (fd : List FundingChannel) (hn : b.name = some n)
    (hl : b.licenses = some ls) (hf : b.funding = some fd) :
    deserializeProject b =
      .ok { name := n, repo_url := b.repo_url.join,
            homepage := b.homepage.join, licenses := ls, funding := fd,
            bug_tracker := b.bug_tracker.join,
            contributing_url := b.contributing_url.join,
            is_open_source := b.is_open_source.join,
            documentation_url := b.documentation_url.join,
            good_first_issues_url := b.good_first_issues_url.join,
            stars := b.stars.join } := by
  unfold deserializeProject
  rw [hn, hl, hf]

/-- Witness for C9 (amended): the repository's own old-schema blob (four
newer fields absent) deserializes with those fields unset. -/
theorem C9_witness :
    deserializeProject blobOldSchema = .ok (emptyProject (str "OldProject")) :=
  C9_absent_fields_unset blobOldSchema (str "OldProject") [] [] rfl rfl rfl

end Syld

namespace Syld

theorem toLower_upper_toNat (c : Char) (h1 : 65 ≤ c.toNat)
    (h2 : c.toNat ≤ 90) : (Char.toLower c).toNat = c.toNat + 32 := by
  have hcond : c.toNat ≥ 65 ∧ c.toNat ≤ 90 := ⟨h1, h2⟩
  simp only [Char.toLower]
  rw [if_pos hcond]
  generalize hn : c.toNat = n at h1 h2 ⊢
  interval_cases n <;> decide

theorem toLower_eq_self (c : Char) (h : ¬ (c.toNat ≥ 65 ∧ c.toNat ≤ 90)) :
    Char.toLower c = c := by
  simp only [Char.toLower]
  rw [if_neg h]

theorem toLower_toLower (c : Char) :
    (Char.toLower c).toLower = Char.toLower c := by
  by_cases h : c.toNat ≥ 65 ∧ c.toNat ≤ 90
  · have hv := toLower_upper_toNat c h.1 h.2
    apply toLower_eq_self
    rw [hv]
    omega
  · rw [toLower_eq_self c h]
    exact toLower_eq_self c h

theorem lowerStr_idem (l : Str) : lowerStr (lowerStr l) = lowerStr l := by
  unfold lowerStr
  rw [List.map_map]
  exact List.map_congr_left (fun a _ => toLower_toLower a)

theorem lowerStr_normalize (u : Str) :
    lowerStr (normalize_url u) = normalize_url u := by
  have hz : ∃ z, normalize_url u = lowerStr z := ⟨_, rfl⟩
  obtain ⟨z, hz⟩ := hz
  rw [hz, lowerStr_idem]

theorem dropWhile_head_not {α : Type} (p : α → Bool) :
    ∀ (l : List α) (c : α), (l.dropWhile p).head? = some c → p c = false := by
  intro l
  induction l with
  | nil => intro c h; cases h
  | cons x t ih =>
    intro c h
    rw [List.dropWhile_cons] at h
    by_cases hp : p x = true
    · rw [if_pos hp] at h
      exact ih c h
    · rw [if_neg hp] at h
      have hx : x = c := by
        injection h
      subst hx
      exact Bool.eq_false_iff.mpr hp

theorem noSlash_trimEnd (x : Str) : NoSlashEnd (trimEndSlash x) := by
  intro c h
  unfold trimEndSlash at h
  rw [List.getLast?_reverse] at h
  have := dropWhile_head_not _ _ _ h
  simpa using this

theorem getLast_drop {α : Type} :
    ∀ (l : List α) (n : Nat), l.drop n ≠ [] →
      (l.drop n).getLast? = l.getLast?
  | _, 0, _ => rfl
  | [], _ + 1, h => absurd rfl h
  | x :: t, n + 1, h => by
    simp only [List.drop_succ_cons] at *
    rw [getLast_drop t n h]
    have ht : t ≠ [] := by
      intro he
      subst he
      simp at h
    obtain ⟨y, t', rfl⟩ := List.exists_cons_of_ne_nil ht
    rw [List.getLast?_cons_cons]

theorem noSlash_drop (l : Str) (n : Nat) (h : NoSlashEnd l) :
    NoSlashEnd (l.drop n) := by
  intro c hc
  by_cases hne : l.drop n = []
  · rw [hne] at hc
    cases hc
  · rw [getLast_drop l n hne] at hc
    exact h c hc

theorem stripPre_eq_drop (p s r : Str) (h : stripPre p s = some r) :
    r = s.drop p.length := by
  unfold stripPre at h
  by_cases hp : hasPre p s = true
  · rw [if_pos hp] at h
    injection h with h
    exact h.symm
  · rw [if_neg hp] at h
    cases h

theorem noSlash_stripPre (p s r : Str) (h : NoSlashEnd s)
    (hs : stripPre p s = some r) : NoSlashEnd r := by
  rw [stripPre_eq_drop p s r hs]
  exact noSlash_drop s p.length h

theorem toLower_ne_slash (c : Char) (h : c ≠ '/') : Char.toLower c ≠ '/' := by
  by_cases hr : c.toNat ≥ 65 ∧ c.toNat ≤ 90
  · have hv := toLower_upper_toNat c hr.1 hr.2
    intro he
    have : (Char.toLower c).toNat = 47 := by
      rw [he]
      decide
    omega
  · rw [toLower_eq_self c hr]
    exact h

theorem noSlash_lower (z : Str) (h : NoSlashEnd z) :
    NoSlashEnd (lowerStr z) := by
  intro c hc
  unfold lowerStr at hc
  rw [List.getLast?_map] at hc
  rcases hz : z.getLast? with _ | c0
  · rw [hz] at hc
    cases hc
  · rw [hz] at hc
    have : c = Char.toLower c0 := by
      injection hc with h1
      exact h1.symm
    subst this
    exact toLower_ne_slash c0 (h c0 hz)

theorem noSlash_matchPre (p s : Str) (h : NoSlashEnd s) :
    NoSlashEnd
      (match stripPre p s with
       | some r => r
       | none => s) := by
  cases hh : stripPre p s with
  | none => exact h
  | some r => exact noSlash_stripPre p s r h hh

theorem noSlash_schemeStep (s : Str) (h : NoSlashEnd s) :
    NoSlashEnd
      (match stripPre (str "https://") s with
       | some r => r
       | none =>
         match stripPre (str "http://") s with
         | some r => r
         | none => s) := by
  cases h1 : stripPre (str "https://") s with
  | some r => exact noSlash_stripPre _ s r h h1
  | none => exact noSlash_matchPre _ s h

theorem noSlash_normalize (u : Str) : NoSlashEnd (normalize_url u) := by
  have h0 := noSlash_trimEnd (trimChars u)
  have h1 := noSlash_schemeStep _ h0
  have h2 := noSlash_matchPre (str "www.") _ h1
  exact noSlash_lower _ h2

theorem trimEndSlash_eq_self (l : Str) (h : NoSlashEnd l) :
    trimEndSlash l = l := by
  induction l using List.reverseRecOn with
  | nil => rfl
  | append_singleton t a _ =>
    have ha : a ≠ '/' := h a (List.getLast?_concat t)
    unfold trimEndSlash
    rw [List.reverse_append]
    simp only [List.reverse_cons, List.reverse_nil, List.nil_append,
      List.singleton_append, List.dropWhile_cons]
    rw [if_neg (by simpa using ha)]
    simp

/-- Counterexample for C2: `normalize_url` is not idempotent over arbitrary
strings — on `"WWW.qemu.org"` one pass lowercases to `"www.qemu.org"`
(the case-sensitive `www.` strip sees `WWW.` and does nothing), and a second
pass then strips the now-lowercase `www.`. -/
theorem C2_counterexample :
    normalize_url (normalize_url (str "WWW.qemu.org")) ≠
      normalize_url (str "WWW.qemu.org") := by
  decide

/-- C2 (amended): normalization is idempotent at `u` whenever one pass has
reached a fixed point of its own steps: `normalize_url u` carries no
surrounding whitespace and does not begin with `https://`, `http://`, or
`www.` (one pass can re-expose any of these, e.g. `"WWW.x"`, `"www.www.x"`,
`"HTTP://x"`, `"www. x"`, in which case a second pass differs). -/
theorem C2_idem_conditional (u : Str)
    (htrim : trimChars (normalize_url u) = normalize_url u)
    (hs : hasPre (str "https://") (normalize_url u) = false)
    (hh : hasPre (str "http://") (normalize_url u) = false)
    (hw : hasPre (str "www.") (normalize_url u) = false) :
    normalize_url (normalize_url u) = normalize_url u := by
  have hslash : trimEndSlash (normalize_url u) = normalize_url u :=
    trimEndSlash_eq_self _ (noSlash_normalize u)
  have hlow : lowerStr (normalize_url u) = normalize_url u :=
    lowerStr_normalize u
  conv_lhs => rw [normalize_url]
  rw [htrim, hslash]
  simp only [stripPre, hs, hh, hw, Bool.false_eq_true, if_false]
  exact hlow

/-- Witness for C2 (amended): a typical URL reaches the fixed point after
one pass, so normalization is idempotent on it. -/
theorem C2_witness :
    normalize_url (normalize_url (str "https://www.Example.com/path/")) =
      normalize_url (str "https://www.Example.com/path/") :=
  C2_idem_conditional (str "https://www.Example.com/path/") (by decide)
    (by decide) (by decide) (by decide)

end Syld

namespace Syld

theorem stripTrailAll_rev (r : Str) :
    stripTrailAll r.reverse =
      (r.dropWhile (fun c => decide (c = '/'))).reverse := by
  induction r with
  | nil => rw [stripTrailAll]; rfl
  | cons c t ih =>
    rw [List.reverse_cons, stripTrailAll]
    by_cases hc : c = '/'
    · subst hc
      rw [dif_pos (List.getLast?_concat t.reverse)]
      rw [List.dropLast_concat]
      rw [ih]
      rw [List.dropWhile_cons]
      rw [if_pos (by decide)]
    · rw [dif_neg (by simp [List.getLast?_concat, hc])]
      rw [List.dropWhile_cons]
      rw [if_neg (by simpa using hc)]
      rw [List.reverse_cons]

theorem stripTrailAll_eq (s : Str) : stripTrailAll s = trimEndSlash s := by
  have h := stripTrailAll_rev s.reverse
  rw [List.reverse_reverse] at h
  rw [h]
  rfl

/-- Counterexample for C6: an input ending in two slashes does NOT retain a
trailing slash after normalization — the implementation's
`trim_end_matches('/')` strips every trailing slash, so `"a//"` normalizes
to `"a"`, not `"a/"`. -/
theorem C6_counterexample :
    normalize_url (str "a//") = str "a" ∧
      normalize_url (str "a//") ≠ str "a/" := by
  constructor
  · decide
  · decide

/-- C6 (amended): `normalize_url` applies exactly these steps in order —
trim surrounding whitespace; strip ALL trailing `/` (repeatedly, one at a
time); strip a leading `https://` or `http://` scheme; strip a leading
`www.` label; lowercase the remainder — and empty input maps to the empty
string.  An input ending in two slashes thus retains no trailing slash. -/
theorem C6_normalizer_steps :
    (∀ u, normalize_url u = normSpec u) ∧
      normalize_url [] = [] ∧
      normalize_url (str "a//") = str "a" := by
  refine ⟨?_, rfl, by decide⟩
  intro u
  unfold normSpec
  rw [stripTrailAll_eq]
  rfl

end Syld

namespace Syld

open List

theorem lookupA_insEntry_self {α : Type} (m : List (Str × List α)) (k : Str)
    (v : α) : lookupA (insEntry m k v) k = lookupA m k ++ [v] := by
  induction m with
  | nil => simp [insEntry, lookupA]
  | cons e rest ih =>
    obtain ⟨k', vs⟩ := e
    by_cases h : k = k'
    · subst h
      simp [insEntry, lookupA]
    · simp only [insEntry, if_neg h, lookupA]
      rw [if_neg (fun he => h he.symm), if_neg (fun he => h he.symm)]
      exact ih

theorem lookupA_insEntry_ne {α : Type} (m : List (Str × List α)) (k k2 : Str)
    (v : α) (h : k ≠ k2) : lookupA (insEntry m k v) k2 = lookupA m k2 := by
  induction m with
  | nil => simp [insEntry, lookupA, h]
  | cons e rest ih =>
    obtain ⟨k', vs⟩ := e
    by_cases hk : k = k'
    · subst hk
      simp only [insEntry, if_pos rfl, lookupA]
      rw [if_neg h, if_neg h]
    · simp only [insEntry, if_neg hk, lookupA]
      by_cases h2 : k' = k2
      · rw [if_pos h2, if_pos h2]
      · rw [if_neg h2, if_neg h2]
        exact ih

theorem keysOf_insEntry {α : Type} (m : List (Str × List α)) (k : Str)
    (v : α) :
    keysOf (insEntry m k v) =
      if k ∈ keysOf m then keysOf m else keysOf m ++ [k] := by
  induction m with
  | nil => simp [insEntry, keysOf]
  | cons e rest ih =>
    obtain ⟨k', vs⟩ := e
    by_cases h : k = k'
    · subst h
      simp [insEntry, keysOf]
    · have hstep : insEntry ((k', vs) :: rest) k v =
          (k', vs) :: insEntry rest k v := by
        simp [insEntry, h]
      rw [hstep]
      have hkeys : keysOf ((k', vs) :: insEntry rest k v) =
          k' :: keysOf (insEntry rest k v) := rfl
      rw [hkeys, ih]
      have hmem : (k ∈ keysOf ((k', vs) :: rest)) ↔ (k ∈ keysOf rest) := by
        simp [keysOf, List.mem_cons, h]
      by_cases hm : k ∈ keysOf rest
      · rw [if_pos hm, if_pos (hmem.mpr hm)]
        rfl
      · rw [if_neg hm, if_neg (fun hc => hm (hmem.mp hc))]
        rfl

theorem mem_keys_insEntry {α : Type} (m : List (Str × List α)) (k k2 : Str)
    (v : α) :
    k2 ∈ keysOf (insEntry m k v) ↔ k2 ∈ keysOf m ∨ k2 = k := by
  rw [keysOf_insEntry]
  by_cases h : k ∈ keysOf m
  · rw [if_pos h]
    constructor
    · exact Or.inl
    · rintro (hm | rfl)
      · exact hm
      · exact h
  · rw [if_neg h]
    simp

theorem nodup_keys_insEntry {α : Type} (m : List (Str × List α)) (k : Str)
    (v : α) (h : (keysOf m).Nodup) : (keysOf (insEntry m k v)).Nodup := by
  rw [keysOf_insEntry]
  by_cases hm : k ∈ keysOf m
  · rw [if_pos hm]; exact h
  · rw [if_neg hm]
    simp [List.nodup_append, h, hm]

theorem values_insEntry_perm {α : Type} (m : List (Str × List α)) (k : Str)
    (v : α) :
    (insEntry m k v).flatMap Prod.snd ~ v :: m.flatMap Prod.snd := by
  induction m with
  | nil => simp [insEntry]
  | cons e rest ih =>
    obtain ⟨k', vs⟩ := e
    by_cases h : k = k'
    · subst h
      simp only [insEntry, if_pos rfl, List.flatMap_cons]
      calc (vs ++ [v]) ++ rest.flatMap Prod.snd
          = vs ++ v :: rest.flatMap Prod.snd := by simp
        _ ~ v :: (vs ++ rest.flatMap Prod.snd) := List.perm_middle
    · simp only [insEntry, if_neg h, List.flatMap_cons]
      calc vs ++ (insEntry rest k v).flatMap Prod.snd
          ~ vs ++ v :: rest.flatMap Prod.snd := List.Perm.append_left vs ih
        _ ~ v :: (vs ++ rest.flatMap Prod.snd) := List.perm_middle

theorem lookupA_foldl {α : Type} (key? : α → Option Str) :
    ∀ (l : List α) (m : List (Str × List α)) (k : Str),
      lookupA
        (l.foldl
          (fun m x =>
            match key? x with
            | some k => insEntry m k x
            | none => m) m) k =
      lookupA m k ++ l.filter (fun x => decide (key? x = some k)) := by
  intro l
  induction l with
  | nil => intro m k; simp
  | cons x t ih =>
    intro m k
    simp only [List.foldl_cons, List.filter_cons]
    rcases hk : key? x with _ | k0
    · simp only []
      rw [ih]
      rw [if_neg (by simp [hk])]
    · simp only []
      by_cases he : k0 = k
      · subst he
        rw [ih, lookupA_insEntry_self]
        rw [if_pos (by simp [hk])]
        simp
      · rw [ih, lookupA_insEntry_ne _ _ _ _ he]
        rw [if_neg (by simp [hk, he])]

theorem lookupA_buildMap {α : Type} (key? : α → Option Str) (l : List α)
    (k : Str) :
    lookupA (buildMap key? l) k =
      l.filter (fun x => decide (key? x = some k)) := by
  unfold buildMap
  rw [lookupA_foldl]
  rfl

theorem mem_keys_foldl {α : Type} (key? : α → Option Str) :
    ∀ (l : List α) (m : List (Str × List α)) (k : Str),
      k ∈ keysOf
        (l.foldl
          (fun m x =>
            match key? x with
            | some k => insEntry m k x
            | none => m) m) ↔
      k ∈ keysOf m ∨ ∃ x ∈ l, key? x = some k := by
  intro l
  induction l with
  | nil => intro m k; simp
  | cons x t ih =>
    intro m k
    simp only [List.foldl_cons]
    rcases hk : key? x with _ | k0
    · rw [ih]
      constructor
      · rintro (hm | hex)
        · exact Or.inl hm
        · exact Or.inr (by
            obtain ⟨y, hy, hky⟩ := hex
            exact ⟨y, List.mem_cons_of_mem _ hy, hky⟩)
      · rintro (hm | ⟨y, hy, hky⟩)
        · exact Or.inl hm
        · rcases List.mem_cons.mp hy with rfl | hyt
          · rw [hk] at hky; cases hky
          · exact Or.inr ⟨y, hyt, hky⟩
    · rw [ih, mem_keys_insEntry]
      constructor
      · rintro ((hm | rfl) | hex)
        · exact Or.inl hm
        · exact Or.inr ⟨x, List.mem_cons_self _ _, hk⟩
        · obtain ⟨y, hy, hky⟩ := hex
          exact Or.inr ⟨y, List.mem_cons_of_mem _ hy, hky⟩
      · rintro (hm | ⟨y, hy, hky⟩)
        · exact Or.inl (Or.inl hm)
        · rcases List.mem_cons.mp hy with rfl | hyt
          · rw [hk] at hky
            exact Or.inl (Or.inr (Option.some.inj hky).symm)
          · exact Or.inr ⟨y, hyt, hky⟩

theorem mem_keys_buildMap {α : Type} (key? : α → Option Str) (l : List α)
    (k : Str) :
    k ∈ keysOf (buildMap key? l) ↔ ∃ x ∈ l, key? x = some k := by
  unfold buildMap
  rw [mem_keys_foldl]
  simp [keysOf]

theorem nodup_keys_foldl {α : Type} (key? : α → Option Str) :
    ∀ (l : List α) (m : List (Str × List α)),
      (keysOf m).Nodup →
      (keysOf
        (l.foldl
          (fun m x =>
            match key? x with
            | some k => insEntry m k x
            | none => m) m)).Nodup := by
  intro l
  induction l with
  | nil => intro m h; exact h
  | cons x t ih =>
    intro m h
    simp only [List.foldl_cons]
    rcases hk : key? x with _ | k0
    · simp only []
      exact ih m h
    · simp only []
      exact ih _ (nodup_keys_insEntry m k0 x h)

theorem nodup_keys_buildMap {α : Type} (key? : α → Option Str) (l : List α) :
    (keysOf (buildMap key? l)).Nodup := by
  unfold buildMap
  exact nodup_keys_foldl key? l [] (by simp [keysOf])

theorem entry_eq_lookupA {α : Type} :
    ∀ (m : List (Str × List α)), (keysOf m).Nodup →
      ∀ (k : Str) (vs : List α), (k, vs) ∈ m → vs = lookupA m k := by
  intro m
  induction m with
  | nil => intro _ k vs h; cases h
  | cons e rest ih =>
    obtain ⟨k', vs'⟩ := e
    intro hnd k vs hmem
    simp only [keysOf, List.map_cons, List.nodup_cons] at hnd
    rcases List.mem_cons.mp hmem with heq | htail
    · obtain ⟨rfl, rfl⟩ : k' = k ∧ vs' = vs := by
        have h1 := congrArg Prod.fst heq
        have h2 := congrArg Prod.snd heq
        exact ⟨h1.symm, h2.symm⟩
      simp [lookupA]
    · have hkne : k' ≠ k := by
        intro he
        subst he
        exact hnd.1 (List.mem_map.mpr ⟨(k', vs), htail, rfl⟩)
      simp only [lookupA, if_neg hkne]
      exact ih hnd.2 k vs htail

theorem values_perm_foldl {α : Type} (key? : α → Option Str) :
    ∀ (l : List α) (m : List (Str × List α)),
      (l.foldl
        (fun m x =>
          match key? x with
          | some k => insEntry m k x
          | none => m) m).flatMap Prod.snd ~
      m.flatMap Prod.snd ++ l.filter (fun x => (key? x).isSome) := by
  intro l
  induction l with
  | nil => intro m; simp
  | cons x t ih =>
    intro m
    simp only [List.foldl_cons, List.filter_cons]
    rcases hk : key? x with _ | k0
    · simp only [hk, Option.isSome_none, Bool.false_eq_true, if_false]
      exact ih m
    · simp only [hk, Option.isSome_some, if_true]
      have h1 := ih (insEntry m k0 x)
      have h2 :
          (insEntry m k0 x).flatMap Prod.snd ++
              t.filter (fun x => (key? x).isSome) ~
            (x :: m.flatMap Prod.snd) ++
              t.filter (fun x => (key? x).isSome) :=
        List.Perm.append_right _ (values_insEntry_perm m k0 x)
      refine (h1.trans h2).trans ?_
      exact List.perm_middle.symm

theorem values_perm_buildMap {α : Type} (key? : α → Option Str) (l : List α) :
    (buildMap key? l).flatMap Prod.snd ~
      l.filter (fun x => (key? x).isSome) := by
  unfold buildMap
  have := values_perm_foldl key? l []
  simpa using this

end Syld

namespace Syld

open List

theorem insBy_perm {α : Type} (lt : α → α → Bool) (x : α) :
    ∀ l : List α, insBy lt x l ~ x :: l := by
  intro l
  induction l with
  | nil => rfl
  | cons y t ih =>
    unfold insBy
    by_cases h : lt x y = true
    · rw [if_pos h]
    · rw [if_neg h]
      exact (ih.cons y).trans (List.Perm.swap x y t)

theorem mem_insBy {α : Type} (lt : α → α → Bool) (x z : α) (l : List α) :
    z ∈ insBy lt x l ↔ z = x ∨ z ∈ l := by
  rw [(insBy_perm lt x l).mem_iff]
  simp

theorem sortBy_aux_perm {α : Type} (lt : α → α → Bool) :
    ∀ (l acc : List α),
      l.foldl (fun acc x => insBy lt x acc) acc ~ l ++ acc := by
  intro l
  induction l with
  | nil => intro acc; simp
  | cons x t ih =>
    intro acc
    simp only [List.foldl_cons]
    refine (ih (insBy lt x acc)).trans ?_
    have h1 : t ++ insBy lt x acc ~ t ++ (x :: acc) :=
      List.Perm.append_left t (insBy_perm lt x acc)
    refine h1.trans ?_
    exact List.perm_middle

theorem sortBy_perm {α : Type} (lt : α → α → Bool) (l : List α) :
    sortBy lt l ~ l := by
  unfold sortBy
  have := sortBy_aux_perm lt l []
  simpa using this

theorem charNat_inj (a b : Char) (h : a.toNat = b.toNat) : a = b :=
  Char.ext (UInt32.toNat.inj h)

theorem strLtB_irrefl : ∀ s : Str, strLtB s s = false := by
  intro s
  induction s with
  | nil => rfl
  | cons c t ih =>
    unfold strLtB
    rw [if_neg (Nat.lt_irrefl _), if_neg (Nat.lt_irrefl _)]
    exact ih

theorem strLtB_total_of_ne : ∀ a b : Str, a ≠ b →
    strLtB a b = true ∨ strLtB b a = true := by
  intro a
  induction a with
  | nil =>
    intro b hb
    cases b with
    | nil => exact absurd rfl hb
    | cons y ys => exact Or.inl rfl
  | cons x xs ih =>
    intro b hb
    cases b with
    | nil => exact Or.inr rfl
    | cons y ys =>
      rcases Nat.lt_trichotomy x.toNat y.toNat with hlt | heq | hgt
      · left
        unfold strLtB
        rw [if_pos hlt]
      · have hxy : x = y := charNat_inj x y heq
        subst hxy
        have hne : xs ≠ ys := by
          intro he
          subst he
          exact hb rfl
        rcases ih ys hne with h | h
        · left
          unfold strLtB
          rw [if_neg (Nat.lt_irrefl _), if_neg (Nat.lt_irrefl _)]
          exact h
        · right
          unfold strLtB
          rw [if_neg (Nat.lt_irrefl _), if_neg (Nat.lt_irrefl _)]
          exact h
      · right
        unfold strLtB
        rw [if_pos hgt]

theorem strLtB_trans : ∀ a b c : Str, strLtB a b = true →
    strLtB b c = true → strLtB a c = true := by
  intro a
  induction a with
  | nil =>
    intro b c hab hbc
    cases b with
    | nil => cases hab
    | cons y ys =>
      cases c with
      | nil => cases hbc
      | cons z zs => rfl
  | cons x xs ih =>
    intro b c hab hbc
    cases b with
    | nil => cases hab
    | cons y ys =>
      cases c with
      | nil => cases hbc
      | cons z zs =>
        unfold strLtB at hab hbc ⊢
        rcases Nat.lt_trichotomy x.toNat y.toNat with h1 | h1 | h1
        · rcases Nat.lt_trichotomy y.toNat z.toNat with h2 | h2 | h2
          · rw [if_pos (by omega : x.toNat < z.toNat)]
          · rw [if_pos (by omega : x.toNat < z.toNat)]
          · rw [if_neg (by omega : ¬ y.toNat < z.toNat),
              if_pos (by omega : z.toNat < y.toNat)] at hbc
            cases hbc
        · rcases Nat.lt_trichotomy y.toNat z.toNat with h2 | h2 | h2
          · rw [if_pos (by omega : x.toNat < z.toNat)]
          · rw [if_neg (by omega : ¬ x.toNat < y.toNat),
              if_neg (by omega : ¬ y.toNat < x.toNat)] at hab
            rw [if_neg (by omega : ¬ y.toNat < z.toNat),
              if_neg (by omega : ¬ z.toNat < y.toNat)] at hbc
            rw [if_neg (by omega : ¬ x.toNat < z.toNat),
              if_neg (by omega : ¬ z.toNat < x.toNat)]
            exact ih ys zs hab hbc
          · rw [if_neg (by omega : ¬ y.toNat < z.toNat),
              if_pos (by omega : z.toNat < y.toNat)] at hbc
            cases hbc
        · rw [if_neg (by omega : ¬ x.toNat < y.toNat),
            if_pos (by omega : y.toNat < x.toNat)] at hab
          cases hab

end Syld

namespace Syld

open List

theorem insBy_pairwise (x : Str) :
    ∀ l : List Str, l.Pairwise (fun a b => strLtB a b = true) → x ∉ l →
      (insBy strLtB x l).Pairwise (fun a b => strLtB a b = true) := by
  intro l
  induction l with
  | nil =>
    intro _ _
    simp [insBy]
  | cons y t ih =>
    intro hp hx
    have hxy : x ≠ y := fun he => hx (he ▸ List.mem_cons_self _ _)
    have hxt : x ∉ t := fun hm => hx (List.mem_cons_of_mem _ hm)
    rw [List.pairwise_cons] at hp
    obtain ⟨hy, ht⟩ := hp
    unfold insBy
    by_cases h : strLtB x y = true
    · rw [if_pos h]
      rw [List.pairwise_cons]
      constructor
      · intro z hz
        rcases List.mem_cons.mp hz with rfl | hzt
        · exact h
        · exact strLtB_trans x y z h (hy z hzt)
      · rw [List.pairwise_cons]
        exact ⟨hy, ht⟩
    · rw [if_neg h]
      have hyx : strLtB y x = true := by
        rcases strLtB_total_of_ne x y hxy with h' | h'
        · exact absurd h' h
        · exact h'
      rw [List.pairwise_cons]
      constructor
      · intro z hz
        rcases (mem_insBy strLtB x z t).mp hz with rfl | hzt
        · exact hyx
        · exact hy z hzt
      · exact ih ht hxt

theorem sortStr_aux_pairwise :
    ∀ (l acc : List Str),
      acc.Pairwise (fun a b => strLtB a b = true) → (l ++ acc).Nodup →
      (l.foldl (fun acc x => insBy strLtB x acc) acc).Pairwise
        (fun a b => strLtB a b = true) := by
  intro l
  induction l with
  | nil => intro acc hp _; exact hp
  | cons x t ih =>
    intro acc hp hnd
    simp only [List.foldl_cons]
    have hnd' : (x :: (t ++ acc)).Nodup := hnd
    rw [List.nodup_cons] at hnd'
    have hxacc : x ∉ acc := fun hm => hnd'.1 (List.mem_append_right _ hm)
    apply ih
    · exact insBy_pairwise x acc hp hxacc
    · have hperm : x :: (t ++ acc) ~ t ++ insBy strLtB x acc := by
        have h1 : x :: (t ++ acc) ~ t ++ (x :: acc) := List.perm_middle.symm
        have h2 : t ++ (x :: acc) ~ t ++ insBy strLtB x acc :=
          List.Perm.append_left t (insBy_perm strLtB x acc).symm
        exact h1.trans h2
      exact hperm.nodup hnd

theorem sortStr_pairwise (l : List Str) (h : l.Nodup) :
    (sortStr l).Pairwise (fun a b => strLtB a b = true) := by
  unfold sortStr sortBy
  exact sortStr_aux_pairwise l [] List.Pairwise.nil (by simpa using h)

theorem sortStr_perm (l : List Str) : sortStr l ~ l :=
  sortBy_perm strLtB l

theorem sortStr_ne_nil (l : List Str) (h : 2 ≤ l.length) : sortStr l ≠ [] := by
  intro he
  have := (sortStr_perm l).length_eq
  rw [he] at this
  simp at this
  omega

theorem flatMap_congr {α β : Type} {f g : α → List β} :
    ∀ l : List α, (∀ a ∈ l, f a = g a) → l.flatMap f = l.flatMap g := by
  intro l
  induction l with
  | nil => intro _; rfl
  | cons x t ih =>
    intro h
    simp only [List.flatMap_cons]
    rw [h x (List.mem_cons_self _ _), ih (fun a ha => h a (List.mem_cons_of_mem _ ha))]

theorem countP_ext {α : Type} (p q : α → Bool) :
    ∀ l : List α, (∀ x ∈ l, p x = q x) → l.countP p = l.countP q := by
  intro l
  induction l with
  | nil => intro _; rfl
  | cons x t ih =>
    intro h
    rw [List.countP_cons, List.countP_cons,
      h x (List.mem_cons_self _ _),
      ih (fun a ha => h a (List.mem_cons_of_mem _ ha))]

theorem countP_entry {β : Type} :
    ∀ (m : List (Str × List β)), (keysOf m).Nodup →
      ∀ (a : Str) (q : Str × List β → Bool),
        m.countP (fun e => decide (e.1 = a) && q e) =
          if a ∈ keysOf m ∧ q (a, lookupA m a) = true then 1 else 0 := by
  intro m
  induction m with
  | nil =>
    intro _ a q
    rw [if_neg (by simp [keysOf])]
    rfl
  | cons e rest ih =>
    obtain ⟨k, vs⟩ := e
    intro hnd a q
    have hnd' : (keysOf ((k, vs) :: rest)).Nodup := hnd
    rw [show keysOf ((k, vs) :: rest) = k :: keysOf rest from rfl,
      List.nodup_cons] at hnd'
    rw [List.countP_cons]
    by_cases hk : k = a
    · subst hk
      have hzero : rest.countP (fun e => decide (e.1 = k) && q e) = 0 := by
        rw [List.countP_eq_zero]
        intro e he
        have hek : e.1 ≠ k := by
          intro hek
          exact hnd'.1 (by
            rw [← hek]
            exact List.mem_map.mpr ⟨e, he, rfl⟩)
        simp [hek]
      have hlook : lookupA ((k, vs) :: rest) k = vs := by
        simp [lookupA]
      have hpred : (decide ((k, vs).1 = k) && q (k, vs)) = q (k, vs) := by
        simp
      rw [hzero, hlook, hpred]
      have hmem : k ∈ keysOf ((k, vs) :: rest) :=
        List.mem_cons_self _ _
      by_cases hq : q (k, vs) = true
      · rw [if_pos hq, if_pos ⟨hmem, hq⟩]
      · rw [if_neg hq, if_neg (fun hc => hq hc.2)]
    · have hlook : lookupA ((k, vs) :: rest) a = lookupA rest a := by
        simp [lookupA, hk]
      have hhead : (decide ((k, vs).1 = a) && q (k, vs)) = false := by
        simp [hk]
      rw [hhead, if_neg (by simp), Nat.add_zero, ih hnd'.2 a q, hlook]
      have hmem : (a ∈ keysOf ((k, vs) :: rest)) ↔ (a ∈ keysOf rest) := by
        constructor
        · intro hm
          rcases List.mem_cons.mp hm with he | h
          · exact absurd he.symm hk
          · exact h
        · intro hm
          exact List.mem_cons_of_mem _ hm
      by_cases hm : a ∈ keysOf rest ∧ q (a, lookupA rest a) = true
      · rw [if_pos hm, if_pos ⟨hmem.mpr hm.1, hm.2⟩]
      · rw [if_neg hm, if_neg (by
          rintro ⟨h1, h2⟩
          exact hm ⟨hmem.mp h1, h2⟩)]

end Syld

namespace Syld

open List

theorem group_by_project_eq (pkgs : List InstalledPackage) :
    group_by_project pkgs =
      sortBy (fun g h => strLtB g.url h.url)
        (mergedGroups pkgs ++ standaloneGroups pkgs) := rfl

theorem lookupA_exactMap (pkgs : List InstalledPackage) (k : Str) :
    lookupA (exactMap pkgs) k = bucketOf pkgs k := by
  unfold exactMap bucketOf
  rw [lookupA_buildMap]
  apply List.filter_congr
  intro p _
  simp

theorem allKeys_nodup (pkgs : List InstalledPackage) :
    (allKeys pkgs).Nodup := by
  unfold allKeys exactMap
  exact nodup_keys_buildMap _ _

theorem childKeys_nodup (pkgs : List InstalledPackage) (a : Str) :
    (childKeys pkgs a).Nodup := by
  unfold childKeys
  exact (allKeys_nodup pkgs).filter _

theorem mem_childKeys (pkgs : List InstalledPackage) (u a : Str) :
    u ∈ childKeys pkgs a ↔
      u ∈ allKeys pkgs ∧ computeAncestor u = some a := by
  unfold childKeys
  rw [List.mem_filter]
  simp

theorem ancKey_of_none (u : Str) (h : computeAncestor u = none) :
    ancKey u = none := by
  unfold ancKey
  rw [h]

theorem ancKey_of_anc (u b : Str) (h : computeAncestor u = some b) :
    ancKey u = if b = [] then none else some b := by
  unfold ancKey
  rw [h]

theorem ancKey_nonempty (u a : Str) (h : ancKey u = some a) : a ≠ [] := by
  rcases hc : computeAncestor u with _ | b
  · rw [ancKey_of_none u hc] at h
    cases h
  · rw [ancKey_of_anc u b hc] at h
    by_cases hb : b = []
    · rw [if_pos hb] at h
      cases h
    · rw [if_neg hb] at h
      have hba : b = a := Option.some.inj h
      exact hba ▸ hb

theorem ancKey_eq_iff (u a : Str) (ha : a ≠ []) :
    ancKey u = some a ↔ computeAncestor u = some a := by
  rcases hc : computeAncestor u with _ | b
  · rw [ancKey_of_none u hc]
  · rw [ancKey_of_anc u b hc]
    by_cases hb : b = []
    · subst hb
      rw [if_pos rfl]
      constructor
      · intro h
        cases h
      · intro h
        exact absurd (Option.some.inj h).symm ha
    · rw [if_neg hb]

theorem lookupA_ancChildren (pkgs : List InstalledPackage) (a : Str)
    (ha : a ≠ []) :
    lookupA (ancChildren (allKeys pkgs)) a = childKeys pkgs a := by
  unfold ancChildren childKeys
  rw [lookupA_buildMap]
  apply List.filter_congr
  intro u _
  exact decide_eq_decide.mpr (ancKey_eq_iff u a ha)

theorem ac_entry (pkgs : List InstalledPackage) (e : Str × List Str)
    (he : e ∈ ancChildren (allKeys pkgs)) :
    e.1 ≠ [] ∧ e.2 = childKeys pkgs e.1 := by
  have hk : e.1 ∈ keysOf (ancChildren (allKeys pkgs)) :=
    List.mem_map.mpr ⟨e, he, rfl⟩
  have hne : e.1 ≠ [] := by
    obtain ⟨u, _, hu⟩ :=
      (mem_keys_buildMap ancKey (allKeys pkgs) e.1).mp hk
    exact ancKey_nonempty u e.1 hu
  have hv : e.2 = lookupA (ancChildren (allKeys pkgs)) e.1 := by
    apply entry_eq_lookupA _ (nodup_keys_buildMap ancKey (allKeys pkgs))
    simpa using he
  rw [hv, lookupA_ancChildren pkgs e.1 hne]
  exact ⟨hne, rfl⟩

theorem mem_mergedGroups (pkgs : List InstalledPackage) (g : ProjectGroup) :
    g ∈ mergedGroups pkgs ↔
      ∃ e ∈ ancChildren (allKeys pkgs), 2 ≤ e.2.length ∧
        g = { url := e.1, project_urls := sortStr e.2,
              packages :=
                e.2.flatMap (fun c => lookupA (exactMap pkgs) c) } := by
  unfold mergedGroups
  rw [List.mem_filterMap]
  constructor
  · rintro ⟨e, he, hfe⟩
    by_cases h2 : 2 ≤ e.2.length
    · rw [if_pos h2] at hfe
      exact ⟨e, he, h2, (Option.some.inj hfe).symm⟩
    · rw [if_neg h2] at hfe
      cases hfe
  · rintro ⟨e, he, h2, rfl⟩
    exact ⟨e, he, by rw [if_pos h2]⟩

theorem mem_standaloneGroups (pkgs : List InstalledPackage)
    (g : ProjectGroup) :
    g ∈ standaloneGroups pkgs ↔
      ∃ e ∈ exactMap pkgs, e.1 ∉ alreadyMerged pkgs ∧
        g = { url := e.1, project_urls := [], packages := e.2 } := by
  unfold standaloneGroups
  rw [List.mem_filterMap]
  constructor
  · rintro ⟨e, he, hfe⟩
    by_cases hm : e.1 ∈ alreadyMerged pkgs
    · rw [if_pos hm] at hfe
      cases hfe
    · rw [if_neg hm] at hfe
      exact ⟨e, he, hm, (Option.some.inj hfe).symm⟩
  · rintro ⟨e, he, hm, rfl⟩
    exact ⟨e, he, by rw [if_neg hm]⟩

theorem merged_urls_ne_nil (pkgs : List InstalledPackage) (g : ProjectGroup)
    (h : g ∈ mergedGroups pkgs) : g.project_urls ≠ [] := by
  obtain ⟨e, _, h2, rfl⟩ := (mem_mergedGroups pkgs g).mp h
  exact sortStr_ne_nil e.2 h2

theorem standalone_urls_nil (pkgs : List InstalledPackage) (g : ProjectGroup)
    (h : g ∈ standaloneGroups pkgs) : g.project_urls = [] := by
  obtain ⟨e, _, _, rfl⟩ := (mem_standaloneGroups pkgs g).mp h
  rfl

theorem mem_am_spec (pkgs : List InstalledPackage) (u : Str)
    (h : u ∈ alreadyMerged pkgs) :
    ∃ a, a ≠ [] ∧ computeAncestor u = some a ∧
      2 ≤ (childKeys pkgs a).length ∧ u ∈ allKeys pkgs := by
  unfold alreadyMerged at h
  obtain ⟨e, he, hu⟩ := List.mem_flatMap.mp h
  obtain ⟨heac, helen⟩ := List.mem_filter.mp he
  obtain ⟨hne, hck⟩ := ac_entry pkgs e heac
  rw [hck] at hu
  obtain ⟨hall, hanc⟩ := (mem_childKeys pkgs u e.1).mp hu
  refine ⟨e.1, hne, hanc, ?_, hall⟩
  rw [← hck]
  exact of_decide_eq_true helen

theorem am_nodup (pkgs : List InstalledPackage) :
    (alreadyMerged pkgs).Nodup := by
  unfold alreadyMerged
  rw [List.nodup_flatMap]
  constructor
  · intro e he
    have heac := (List.mem_filter.mp he).1
    rw [(ac_entry pkgs e heac).2]
    exact childKeys_nodup pkgs e.1
  · have hnd := nodup_keys_buildMap ancKey (allKeys pkgs)
    have hpw : (ancChildren (allKeys pkgs)).Pairwise
        (fun e1 e2 => e1.1 ≠ e2.1) := by
      unfold keysOf at hnd
      exact (List.pairwise_map).mp hnd
    have hpw2 := hpw.filter (fun e => decide (2 ≤ e.2.length))
    apply List.Pairwise.imp_of_mem ?_ hpw2
    intro e1 e2 h1 h2 hne
    have h1ac := (List.mem_filter.mp h1).1
    have h2ac := (List.mem_filter.mp h2).1
    have hc1 := (ac_entry pkgs e1 h1ac).2
    have hc2 := (ac_entry pkgs e2 h2ac).2
    intro u hu1 hu2
    rw [hc1] at hu1
    rw [hc2] at hu2
    have ha1 := ((mem_childKeys pkgs u e1.1).mp hu1).2
    have ha2 := ((mem_childKeys pkgs u e2.1).mp hu2).2
    rw [ha1] at ha2
    exact hne (Option.some.inj ha2)

theorem am_subset (pkgs : List InstalledPackage) (u : Str)
    (h : u ∈ alreadyMerged pkgs) : u ∈ allKeys pkgs := by
  obtain ⟨a, _, _, _, hall⟩ := mem_am_spec pkgs u h
  exact hall

end Syld

namespace Syld

open List

theorem flat_filterMap_pos {α β γ : Type} (P : α → Prop) [DecidablePred P]
    (G : α → β) (pk : β → List γ) :
    ∀ l : List α,
      (l.filterMap (fun e => if P e then some (G e) else none)).flatMap pk =
        (l.filter (fun e => decide (P e))).flatMap (fun e => pk (G e)) := by
  intro l
  induction l with
  | nil => rfl
  | cons x t ih =>
    by_cases h : P x
    · simp [List.filterMap_cons, List.filter_cons, h, ih]
    · simp [List.filterMap_cons, List.filter_cons, h, ih]

theorem flat_filterMap_neg {α β γ : Type} (P : α → Prop) [DecidablePred P]
    (G : α → β) (pk : β → List γ) :
    ∀ l : List α,
      (l.filterMap (fun e => if P e then none else some (G e))).flatMap pk =
        (l.filter (fun e => !(decide (P e)))).flatMap (fun e => pk (G e)) := by
  intro l
  induction l with
  | nil => rfl
  | cons x t ih =>
    by_cases h : P x
    · simp [List.filterMap_cons, List.filter_cons, h, ih]
    · simp [List.filterMap_cons, List.filter_cons, h, ih]

theorem merged_flat (pkgs : List InstalledPackage) :
    (mergedGroups pkgs).flatMap (fun g => g.packages) =
      (alreadyMerged pkgs).flatMap
        (fun c => lookupA (exactMap pkgs) c) := by
  unfold mergedGroups alreadyMerged
  rw [flat_filterMap_pos (fun e : Str × List Str => 2 ≤ e.2.length)
    (fun e => ({ url := e.1, project_urls := sortStr e.2,
                 packages :=
                   e.2.flatMap (fun c => lookupA (exactMap pkgs) c) } :
        ProjectGroup))
    (fun g => g.packages)]
  rw [List.flatMap_assoc]

theorem standalone_flat (pkgs : List InstalledPackage) :
    (standaloneGroups pkgs).flatMap (fun g => g.packages) =
      ((exactMap pkgs).filter
        (fun e => !(decide (e.1 ∈ alreadyMerged pkgs)))).flatMap
        Prod.snd := by
  unfold standaloneGroups
  rw [flat_filterMap_neg (fun e : Str × List InstalledPackage =>
      e.1 ∈ alreadyMerged pkgs)
    (fun e => ({ url := e.1, project_urls := [], packages := e.2 } :
        ProjectGroup))
    (fun g => g.packages)]

theorem entries_flat_keys {β : Type} :
    ∀ m : List (Str × List β), (keysOf m).Nodup → ∀ p : Str → Bool,
      (m.filter (fun e => p e.1)).flatMap Prod.snd =
        ((keysOf m).filter p).flatMap (fun k => lookupA m k) := by
  intro m
  induction m with
  | nil => intro _ _; rfl
  | cons e rest ih =>
    obtain ⟨k, vs⟩ := e
    intro hnd p
    have hnd' : (k :: keysOf rest).Nodup := hnd
    rw [List.nodup_cons] at hnd'
    have hkeys : keysOf ((k, vs) :: rest) = k :: keysOf rest := rfl
    have hlookup_tail : ∀ k2 ∈ (keysOf rest).filter p,
        lookupA ((k, vs) :: rest) k2 = lookupA rest k2 := by
      intro k2 hk2
      have hk2r : k2 ∈ keysOf rest := (List.mem_filter.mp hk2).1
      have hne : k ≠ k2 := fun he => hnd'.1 (he ▸ hk2r)
      simp [lookupA, hne]
    rw [hkeys, List.filter_cons, List.filter_cons]
    by_cases hp : p k = true
    · rw [if_pos hp, if_pos (by exact hp)]
      simp only [List.flatMap_cons]
      have hlk : lookupA ((k, vs) :: rest) k = vs := by simp [lookupA]
      rw [hlk, ih hnd'.2 p]
      congr 1
      exact (flatMap_congr _ hlookup_tail).symm
    · rw [if_neg hp, if_neg (by exact hp)]
      rw [ih hnd'.2 p]
      exact (flatMap_congr _ hlookup_tail).symm

/-- C10: every input package lands in exactly one output group, counted with
multiplicity — the concatenation of all groups' package lists is a
permutation of the input list, through ancestor merging and key collisions
alike. -/
theorem C10_groups_partition (pkgs : List InstalledPackage) :
    (group_by_project pkgs).flatMap (fun g => g.packages) ~ pkgs := by
  rw [group_by_project_eq]
  have hsort :
      sortBy (fun g h => strLtB g.url h.url)
        (mergedGroups pkgs ++ standaloneGroups pkgs) ~
      mergedGroups pkgs ++ standaloneGroups pkgs :=
    sortBy_perm _ _
  refine (hsort.flatMap_right (fun g => g.packages)).trans ?_
  rw [List.flatMap_append, merged_flat, standalone_flat]
  have hkeys_nodup : (keysOf (exactMap pkgs)).Nodup := allKeys_nodup pkgs
  -- the standalone side, re-expressed over keys
  rw [entries_flat_keys (exactMap pkgs) hkeys_nodup
    (fun k => !(decide (k ∈ alreadyMerged pkgs)))]
  -- the merged side: alreadyMerged is a permutation of the kept keys
  have ham : alreadyMerged pkgs ~
      (keysOf (exactMap pkgs)).filter
        (fun k => decide (k ∈ alreadyMerged pkgs)) := by
    rw [perm_ext_iff_of_nodup (am_nodup pkgs) (hkeys_nodup.filter _)]
    intro u
    rw [List.mem_filter]
    constructor
    · intro hu
      exact ⟨am_subset pkgs u hu, decide_eq_true hu⟩
    · rintro ⟨_, hu⟩
      exact of_decide_eq_true hu
  refine (List.Perm.append_right _ (ham.flatMap_right _)).trans ?_
  rw [← List.flatMap_append]
  have hfilters :
      (keysOf (exactMap pkgs)).filter
          (fun k => decide (k ∈ alreadyMerged pkgs)) ++
        (keysOf (exactMap pkgs)).filter
          (fun k => !(decide (k ∈ alreadyMerged pkgs))) ~
      keysOf (exactMap pkgs) :=
    List.filter_append_perm _ _
  refine (hfilters.flatMap_right _).trans ?_
  -- all keys' buckets together are a permutation of the input
  have hall := entries_flat_keys (exactMap pkgs) hkeys_nodup (fun _ => true)
  rw [List.filter_eq_self.mpr (fun _ _ => rfl),
    List.filter_eq_self.mpr (fun _ _ => rfl)] at hall
  rw [← hall]
  have hvals := values_perm_buildMap
    (fun p : InstalledPackage => some (groupKey p)) pkgs
  have hfl : pkgs.filter
      (fun x => (some (groupKey x)).isSome) = pkgs :=
    List.filter_eq_self.mpr (fun _ _ => rfl)
  rw [hfl] at hvals
  exact hvals

end Syld

namespace Syld

open List

/-- C7 (amended): for every eligible ancestor, the merged group's packages
list is the concatenation of the child buckets — each bucket being exactly
the input packages with that normalized key, in input order — but the
buckets are concatenated in the hash map's iteration order over the
children (first-insertion order in this model), which is an unspecified
permutation of ascending child-key order, not necessarily ascending
child-key order itself. -/
theorem C7_merged_packages (pkgs : List InstalledPackage) (a : Str)
    (g : ProjectGroup) (hg : g ∈ group_by_project pkgs) (hurl : g.url = a)
    (hne : g.project_urls ≠ []) :
    (∃ cs, cs ~ childKeys pkgs a ∧
        g.packages = cs.flatMap (bucketOf pkgs)) ∧
    g.packages ~ (sortStr (childKeys pkgs a)).flatMap (bucketOf pkgs) := by
  rw [group_by_project_eq] at hg
  have hg2 : g ∈ mergedGroups pkgs ++ standaloneGroups pkgs :=
    (sortBy_perm _ _).mem_iff.mp hg
  rcases List.mem_append.mp hg2 with hgm | hgs
  · obtain ⟨e, he, h2, hgeq⟩ := (mem_mergedGroups pkgs g).mp hgm
    subst hgeq
    have hea : e.1 = a := hurl
    have hck : e.2 = childKeys pkgs a := by
      rw [(ac_entry pkgs e he).2, hea]
    have hbucket :
        e.2.flatMap (fun c => lookupA (exactMap pkgs) c) =
          e.2.flatMap (bucketOf pkgs) :=
      flatMap_congr e.2 (fun c _ => lookupA_exactMap pkgs c)
    constructor
    · refine ⟨e.2, by rw [hck], ?_⟩
      exact hbucket
    · show e.2.flatMap (fun c => lookupA (exactMap pkgs) c) ~ _
      rw [hbucket, hck]
      exact ((sortStr_perm (childKeys pkgs a)).symm).flatMap_right _
  · exact absurd (standalone_urls_nil pkgs g hgs) hne

/-- Counterexample for C7: with sibling buckets inserted in descending key
order (`a.org/z` before `a.org/b`), the merged group's packages stay in
iteration order `[pz, pb]`, while the concatenation in ascending child-key
order would be `[pb, pz]` — the code sorts `project_urls` but never reorders
the packages. -/
theorem C7_counterexample :
    (group_by_project pkgsOrd).map (fun g => g.packages) =
      [[mkPkg "pz" "https://a.org/z", mkPkg "pb" "https://a.org/b"]] ∧
    (sortStr (childKeys pkgsOrd (str "a.org"))).flatMap (bucketOf pkgsOrd) =
      [mkPkg "pb" "https://a.org/b", mkPkg "pz" "https://a.org/z"] ∧
    [mkPkg "pz" "https://a.org/z", mkPkg "pb" "https://a.org/b"] ≠
      [mkPkg "pb" "https://a.org/b", mkPkg "pz" "https://a.org/z"] := by
  refine ⟨by decide, by decide, by decide⟩

/-- Witness for C7 (amended) at the two-sibling example. -/
theorem C7_witness :
    ∃ cs, cs ~ childKeys pkgsSib (str "0pointer.de/projects") ∧
      groupSib.packages = cs.flatMap (bucketOf pkgsSib) :=
  (C7_merged_packages pkgsSib (str "0pointer.de/projects") groupSib
    (by decide) (by decide) (by decide)).1

end Syld

namespace Syld

open List

theorem standalone_countP_nonempty_zero (pkgs : List InstalledPackage)
    (a : Str) :
    (standaloneGroups pkgs).countP
      (fun g => decide (g.url = a) && !g.project_urls.isEmpty) = 0 := by
  rw [List.countP_eq_zero]
  intro g hgs
  rw [standalone_urls_nil pkgs g hgs]
  simp

theorem merged_countP_nonempty (pkgs : List InstalledPackage) (a : Str) :
    (mergedGroups pkgs).countP
        (fun g => decide (g.url = a) && !g.project_urls.isEmpty) =
      if a ∈ keysOf (ancChildren (allKeys pkgs)) ∧
          (decide (2 ≤ (lookupA (ancChildren (allKeys pkgs)) a).length))
            = true
        then 1 else 0 := by
  unfold mergedGroups
  rw [List.countP_filterMap]
  have hext := countP_ext
    (fun e : Str × List Str =>
      (((if 2 ≤ e.2.length then
          some { url := e.1, project_urls := sortStr e.2,
                 packages :=
                   e.2.flatMap (fun c => lookupA (exactMap pkgs) c) }
        else none).map
          (fun g : ProjectGroup =>
            decide (g.url = a) && !g.project_urls.isEmpty)).getD false))
    (fun e : Str × List Str =>
      decide (e.1 = a) && decide (2 ≤ e.2.length))
    (ancChildren (allKeys pkgs))
    (by
      intro e _
      by_cases h2 : 2 ≤ e.2.length
      · have hne := sortStr_ne_nil e.2 h2
        have hie : (sortStr e.2).isEmpty = false := by
          cases hs : sortStr e.2 with
          | nil => exact absurd hs hne
          | cons y t => rfl
        simp [h2, hie]
      · simp [h2])
  rw [hext]
  exact countP_entry _ (nodup_keys_buildMap _ _) a _

theorem merged_countP_empty_zero (pkgs : List InstalledPackage) (c : Str) :
    (mergedGroups pkgs).countP
      (fun g => decide (g.url = c) && g.project_urls.isEmpty) = 0 := by
  rw [List.countP_eq_zero]
  intro g hgm
  obtain ⟨e, _, h2, hgeq⟩ := (mem_mergedGroups pkgs g).mp hgm
  subst hgeq
  have hne := sortStr_ne_nil e.2 h2
  have hie : (sortStr e.2).isEmpty = false := by
    cases hs : sortStr e.2 with
    | nil => exact absurd hs hne
    | cons y t => rfl
  simp [hie]

theorem standalone_countP_empty (pkgs : List InstalledPackage) (c : Str) :
    (standaloneGroups pkgs).countP
        (fun g => decide (g.url = c) && g.project_urls.isEmpty) =
      if c ∈ keysOf (exactMap pkgs) ∧
          (!(decide (c ∈ alreadyMerged pkgs))) = true
        then 1 else 0 := by
  unfold standaloneGroups
  rw [List.countP_filterMap]
  have hext := countP_ext
    (fun e : Str × List InstalledPackage =>
      (((if e.1 ∈ alreadyMerged pkgs then none
        else some { url := e.1, project_urls := [], packages := e.2 }).map
          (fun g : ProjectGroup =>
            decide (g.url = c) && g.project_urls.isEmpty)).getD false))
    (fun e : Str × List InstalledPackage =>
      decide (e.1 = c) && !(decide (e.1 ∈ alreadyMerged pkgs)))
    (exactMap pkgs)
    (by
      intro e _
      by_cases hm : e.1 ∈ alreadyMerged pkgs
      · simp [hm]
      · simp [hm])
  rw [hext]
  have := countP_entry (exactMap pkgs) (allKeys_nodup pkgs) c
    (fun e => !(decide (e.1 ∈ alreadyMerged pkgs)))
  rw [this]

/-- C3 (amended): for every NON-EMPTY ancestor string `a` (the code skips
the empty ancestor produced by keys like `/a`), if two or more distinct
exact bucket keys have ancestor `a` then `group_by_project` emits exactly
one merged group keyed `a` (identified by a non-empty member-URL list),
whose member URLs are exactly the child keys, sorted strictly ascending;
if exactly one child key has ancestor `a`, no merged group keyed `a` is
emitted and that child remains as the unique standalone exact group keyed
by the child key with empty member URLs. -/
theorem C3_ancestor_merge (pkgs : List InstalledPackage) (a : Str)
    (ha : a ≠ []) :
    (2 ≤ (childKeys pkgs a).length →
      (group_by_project pkgs).countP
          (fun g => decide (g.url = a) && !g.project_urls.isEmpty) = 1 ∧
      ∀ g ∈ group_by_project pkgs, g.url = a → g.project_urls ≠ [] →
        g.project_urls.Pairwise (fun x y => strLtB x y = true) ∧
        g.project_urls ~ childKeys pkgs a) ∧
    ((childKeys pkgs a).length = 1 →
      (group_by_project pkgs).countP
          (fun g => decide (g.url = a) && !g.project_urls.isEmpty) = 0 ∧
      ∀ c, childKeys pkgs a = [c] →
        (group_by_project pkgs).countP
          (fun g => decide (g.url = c) && g.project_urls.isEmpty) = 1) := by
  have hcount : ∀ p : ProjectGroup → Bool,
      (group_by_project pkgs).countP p =
        (mergedGroups pkgs).countP p + (standaloneGroups pkgs).countP p := by
    intro p
    rw [group_by_project_eq, (sortBy_perm _ _).countP_eq, List.countP_append]
  have hlook := lookupA_ancChildren pkgs a ha
  constructor
  · intro hlen
    constructor
    · rw [hcount, merged_countP_nonempty, standalone_countP_nonempty_zero,
        hlook]
      have hmem : a ∈ keysOf (ancChildren (allKeys pkgs)) := by
        have hck : childKeys pkgs a ≠ [] := by
          intro h
          rw [h] at hlen
          simp at hlen
        obtain ⟨c, hc⟩ := List.exists_mem_of_ne_nil _ hck
        obtain ⟨hall, hanc⟩ := (mem_childKeys pkgs c a).mp hc
        exact (mem_keys_buildMap ancKey (allKeys pkgs) a).mpr
          ⟨c, hall, (ancKey_eq_iff c a ha).mpr hanc⟩
      rw [if_pos ⟨hmem, decide_eq_true hlen⟩]
    · intro g hg hurl hne
      rw [group_by_project_eq] at hg
      have hg2 : g ∈ mergedGroups pkgs ++ standaloneGroups pkgs :=
        (sortBy_perm _ _).mem_iff.mp hg
      rcases List.mem_append.mp hg2 with hgm | hgs
      · obtain ⟨e, he, h2, hgeq⟩ := (mem_mergedGroups pkgs g).mp hgm
        subst hgeq
        have hea : e.1 = a := hurl
        have hck : e.2 = childKeys pkgs a := by
          rw [(ac_entry pkgs e he).2, hea]
        constructor
        · show (sortStr e.2).Pairwise _
          rw [hck]
          exact sortStr_pairwise _ (childKeys_nodup pkgs a)
        · show sortStr e.2 ~ _
          rw [hck]
          exact sortStr_perm _
      · exact absurd (standalone_urls_nil pkgs g hgs) hne
  · intro hlen
    constructor
    · rw [hcount, merged_countP_nonempty, standalone_countP_nonempty_zero,
        hlook]
      rw [if_neg (by
        rintro ⟨_, h2⟩
        have := of_decide_eq_true h2
        omega)]
    · intro c hc
      rw [hcount, merged_countP_empty_zero, standalone_countP_empty]
      have hcmem : c ∈ childKeys pkgs a := by
        rw [hc]
        exact List.mem_cons_self _ _
      obtain ⟨hall, hanc⟩ := (mem_childKeys pkgs c a).mp hcmem
      have hnotam : c ∉ alreadyMerged pkgs := by
        intro ham
        obtain ⟨a2, _, hanc2, hlen2, _⟩ := mem_am_spec pkgs c ham
        rw [hanc] at hanc2
        have : a = a2 := Option.some.inj hanc2
        subst this
        rw [hlen] at hlen2
        omega
      rw [if_pos ⟨hall, by simp [hnotam]⟩]

end Syld

namespace Syld

/-- Counterexample for C3: the packages with URLs `/a` and `/b` give two
distinct exact keys whose ancestor (last `/`-segment removed) is the empty
string — two or more children — yet `group_by_project` produces NO merged
group keyed by that ancestor: the `!ancestor.is_empty()` guard skips empty
ancestors, and both packages stay standalone. -/
theorem C3_counterexample :
    childKeys pkgsSlash [] = [str "/a", str "/b"] ∧
    (group_by_project pkgsSlash).countP
      (fun g => decide (g.url = ([] : Str)) && !g.project_urls.isEmpty)
      = 0 ∧
    group_by_project pkgsSlash =
      [{ url := str "/a", project_urls := [],
         packages := [mkPkg "pa" "/a"] },
       { url := str "/b", project_urls := [],
         packages := [mkPkg "pb" "/b"] }] := by
  refine ⟨by decide, by decide, by decide⟩

/-- Witness for C3 (amended): the two-sibling example produces exactly one
merged group keyed by the shared ancestor. -/
theorem C3_witness :
    (group_by_project pkgsSib).countP
      (fun g => decide (g.url = str "0pointer.de/projects") &&
        !g.project_urls.isEmpty) = 1 :=
  ((C3_ancestor_merge pkgsSib (str "0pointer.de/projects")
      (by decide)).1 (by decide)).1

end Syld
